import Mathlib

/-!
Shallow embedding of `RySimpleRangeTester.h` (a single-header C++ range test
framework) and verification of its specification.

Modelling conventions:
* `std::unordered_map<std::string, TestItem>` is modelled as an association
  list `List (String × TestItem T)` with unique keys; `try_emplace` becomes
  insert-if-absent at the end of the list.  The C++ iteration order over an
  `unordered_map` is unspecified; the list order stands for one such order.
* `std::function<bool(const T&)>`, which may throw, is modelled as
  `T → Except String Bool`; the `String` of the `error` case is the message
  returned by `e.what()`.
* `std::chrono` durations measured by the wall clock are external
  nondeterminism; the run loop takes a function `durOf : Nat → Nat` giving the
  measured duration (in ms) of the i-th executed item.
* `double` arithmetic of `getPassRate` is modelled over `ℚ`.
* `std::format("{}", n)` for a `size_t` renders `n` in decimal; we model it
  with `natDecimal` below, built on `Nat.digits 10`.
-/

namespace RyRange

/-- Base-10 digits of `n` (little-endian), computed with explicit fuel so
that it reduces in the kernel; with fuel `≥ n` it agrees with
`Nat.digits 10 n` (lemma `natDigitsAux_eq_digits`). -/
def natDigitsAux : Nat → Nat → List Nat
  | _, 0 => []
  | 0, _ + 1 => []
  | fuel + 1, n + 1 => ((n + 1) % 10) :: natDigitsAux fuel ((n + 1) / 10)

/-- Decimal rendering of a natural number, modelling `std::format("{}", n)`:
the digits of `n` in base 10, most significant first, `"0"` for `0`. -/
def natDecimal (n : Nat) : String :=
  if n = 0 then "0" else ⟨((natDigitsAux n n).map fun d => Char.ofNat (48 + d)).reverse⟩

/-- One test item: value, name, optional description, expected-failure flag
(struct `TestItem` of `RySimpleRangeTester`). -/
structure TestItem (T : Type) where
  item : T
  name : String
  description : String
  expectedToFail : Bool
deriving Repr, DecidableEq

/-- One per-item outcome (struct `TestResult`).  `duration` is in ms. -/
structure TestResult where
  name : String
  success : Bool
  error : String
  duration : Nat
  wasExpectedToFail : Bool
  description : String
deriving Repr, DecidableEq

/-- State of one `RySimpleRangeTester<T>` instance: the item map
`m_testItems` (association list with unique keys standing for the
`unordered_map`), the callback slot `m_testCallback` (a predicate that may
throw, hence `Except String Bool`), and the result vector `m_results`. -/
structure Tester (T : Type) where
  testItems : List (String × TestItem T)
  testCallback : Option (T → Except String Bool)
  results : List TestResult

/-- A fresh tester (default-constructed `RySimpleRangeTester`). -/
def emptyTester (T : Type) : Tester T := ⟨[], none, []⟩

/-- Membership test `m_testItems.contains(name)` of the key map. -/
def containsKey {T : Type} (m : List (String × TestItem T)) (k : String) : Bool :=
  m.any fun p => p.1 == k

/-- The candidate name `std::format("{}_{}", baseName, counter)`. -/
def candName (baseName : String) (counter : Nat) : String :=
  baseName ++ "_" ++ natDecimal counter

/-- The `do { name = format(...); counter++ } while (m_testItems.contains(name))`
loop of `generateUniqueName`, with explicit fuel.  The fuel used below,
`m.length + 1`, always suffices (lemma `exists_fresh`). -/
def genLoop {T : Type} (m : List (String × TestItem T)) (baseName : String) :
    Nat → Nat → String
  | 0, counter => candName baseName counter
  | fuel + 1, counter =>
    let name := candName baseName counter
    if containsKey m name then genLoop m baseName fuel (counter + 1) else name

/-- Function `generateUniqueName(baseName)`: counter starts at `m_testItems.size() + 1`
and is incremented until the candidate is absent from the map. -/
def generateUniqueName {T : Type} (m : List (String × TestItem T))
    (baseName : String := "Test") : String :=
  genLoop m baseName (m.length + 1) (m.length + 1)

variable {T : Type}

/-- Insertion `m_testItems.try_emplace(k, args...)`: insert only if the key is absent
(the `std::pair` element is built key first, then value). -/
def tryEmplace (m : List (String × TestItem T)) (k : String) (v : TestItem T) :
    List (String × TestItem T) :=
  if containsKey m k then m else m ++ [(k, v)]

/-- Overload `add(item, name = "", description = "")`: resolve an empty name through
`generateUniqueName()` and insert-if-absent; the effective name is written
into the stored `TestItem`. -/
def addNamed (t : Tester T) (item : T) (name description : String) : Tester T :=
  let effectiveName := if name == "" then generateUniqueName t.testItems else name
  { t with testItems :=
      tryEmplace t.testItems effectiveName ⟨item, effectiveName, description, false⟩ }

/-- Overload `add(TestItem)`: assign a generated name when the item's name is empty,
then insert-if-absent under the item's name. -/
def addItem (t : Tester T) (testItem : TestItem T) : Tester T :=
  let testItem :=
    if testItem.name == "" then
      { testItem with name := generateUniqueName t.testItems }
    else testItem
  { t with testItems := tryEmplace t.testItems testItem.name testItem }

/-- Overload `add(container_of_T, namePrefix = "Test")` and the initializer-list
overload: each element goes through `add(item, generateUniqueName(prefix))`,
the generator seeing the store as it is at that iteration. -/
def addValues (t : Tester T) (items : List T) (baseName : String) : Tester T :=
  items.foldl (fun acc item =>
    addNamed acc item (generateUniqueName acc.testItems baseName) "") t

/-- Overload `add(container_of_TestItem)`: each element goes through `add(TestItem)`. -/
def addItems (t : Tester T) (items : List (TestItem T)) : Tester T :=
  items.foldl addItem t

/-- Method `remove(name)`: erase the (unique) entry with that key; no-op if absent. -/
def remove (t : Tester T) (name : String) : Tester T :=
  { t with testItems := t.testItems.filter fun p => !(p.1 == name) }

/-- Method `removeIf(pred)`: `std::erase_if` over the map, dropping every entry whose
`TestItem` satisfies the predicate. -/
def removeIf (t : Tester T) (pred : TestItem T → Bool) : Tester T :=
  { t with testItems := t.testItems.filter fun p => !pred p.2 }

/-- Method `forEach(callback)`: store the predicate in the callback slot. -/
def forEach (t : Tester T) (callback : T → Except String Bool) : Tester T :=
  { t with testCallback := some callback }

/-- Lookup `m_testItems.find(name)` followed by setting `expectedToFail = true` on
the found entry (at most one entry has the key). -/
def setExpected (name : String) :
    List (String × TestItem T) → List (String × TestItem T)
  | [] => []
  | p :: ps =>
    if p.1 == name then (p.1, { p.2 with expectedToFail := true }) :: ps
    else p :: setExpected name ps

/-- Method `expect(name)`: mark the named entry expected-to-fail; no-op if absent. -/
def expect (t : Tester T) (name : String) : Tester T :=
  { t with testItems := setExpected name t.testItems }

/-- Method `expectIf(pred)`: mark every entry satisfying the predicate. -/
def expectIf (t : Tester T) (pred : TestItem T → Bool) : Tester T :=
  { t with testItems := t.testItems.map fun p =>
      if pred p.2 then (p.1, { p.2 with expectedToFail := true }) else p }

/-- Method `clear()`: empty both the item map and the result vector. -/
def clear (t : Tester T) : Tester T :=
  { t with testItems := [], results := [] }

/-- Method `getTestItem(name)`: read-only lookup, `nullptr` becomes `none`. -/
def getTestItem (t : Tester T) (name : String) : Option (TestItem T) :=
  (t.testItems.find? fun p => p.1 == name).map Prod.snd

/-- The body of the per-item loop of `runTests`: invoke the callback, invert
on `expectedToFail`, set the error message, or capture a thrown exception.
`key` is the map key the loop iterates with, `dur` the measured duration. -/
def runItem (cb : T → Except String Bool) (key : String) (testItem : TestItem T)
    (dur : Nat) : TestResult :=
  match cb testItem.item with
  | Except.ok b =>
    let success := if testItem.expectedToFail then !b else b
    { name := key
      success := success
      error :=
        if success then ""
        else if testItem.expectedToFail then "Test unexpectedly passed" else "Test failed"
      duration := dur
      wasExpectedToFail := testItem.expectedToFail
      description := testItem.description }
  | Except.error e =>
    { name := key
      success := false
      error := e
      duration := dur
      wasExpectedToFail := testItem.expectedToFail
      description := testItem.description }

/-- The `for (const auto& [name, testItem] : m_testItems)` loop, producing one
`TestResult` per entry; `i` is the index of the next item, used only to look
up its measured duration `durOf i`. -/
def runList (cb : T → Except String Bool) (durOf : Nat → Nat) :
    Nat → List (String × TestItem T) → List TestResult
  | _, [] => []
  | i, p :: ps => runItem cb p.1 p.2 (durOf i) :: runList cb durOf (i + 1) ps

/-- Method `runTests()`: throws `"Test callback not set"` when the callback slot is
empty, otherwise clears `m_results` and rebuilds it with one result per item. -/
def runTests (t : Tester T) (durOf : Nat → Nat) : Except String (Tester T) :=
  match t.testCallback with
  | none => Except.error "Test callback not set"
  | some cb => Except.ok { t with results := runList cb durOf 0 t.testItems }

/-- Method `getPassedCount()`: number of successful results. -/
def getPassedCount (t : Tester T) : Nat :=
  t.results.countP fun r => r.success

/-- Method `getFailedCount()`: `m_results.size() - getPassedCount()`. -/
def getFailedCount (t : Tester T) : Nat :=
  t.results.length - getPassedCount t

/-- Method `getPassRate()` over `ℚ` (the C++ uses `double`). -/
def getPassRate (t : Tester T) : ℚ :=
  if t.results.isEmpty then 0
  else (getPassedCount t : ℚ) / (t.results.length : ℚ) * 100

/-- Method `run()`: run all tests, then compare `getPassedCount()` with the store
size.  The exception of `runTests` propagates to the caller. -/
def run (t : Tester T) (durOf : Nat → Nat) : Except String (Bool × Tester T) :=
  match runTests t durOf with
  | Except.error e => Except.error e
  | Except.ok t' => Except.ok (getPassedCount t' == t'.testItems.length, t')

/-- Sum of the per-result durations (`totalTestTime` accumulated in
`runTests`). -/
def totalTestTime (rs : List TestResult) : Nat :=
  (rs.map fun r => r.duration).sum

/-- Algorithm `std::minmax_element` over the result vector with comparator
`a.duration < b.duration`.  Per the C++ standard, the first iterator points
at the FIRST smallest element and the second at the LAST largest element;
the fold below realises exactly that guarantee. -/
def minmaxElement (rs : List TestResult) : Option (TestResult × TestResult) :=
  match rs with
  | [] => none
  | r :: rest =>
    some (rest.foldl (fun mm x =>
      ((if x.duration < mm.1.duration then x else mm.1),
       (if x.duration < mm.2.duration then mm.2 else x))) (r, r))

/-- The average duration `totalTestTime.count() / m_results.size()` (integer
division) printed in the performance-analysis block. -/
def avgTime (rs : List TestResult) : Nat :=
  totalTestTime rs / rs.length

/-- The `slowTests` listing of `printTestReport`: results whose duration
strictly exceeds `static_cast<long long>(avgTime * 1.5)`; for a natural
`avgTime` that cast truncates to `avgTime + avgTime / 2`. -/
def slowTests (rs : List TestResult) : List TestResult :=
  rs.filter fun r => avgTime rs + avgTime rs / 2 < r.duration

/-- Spec-side: the minimum duration in a result log (0 when empty). -/
def minDuration : List TestResult → Nat
  | [] => 0
  | r :: rest => rest.foldl (fun m x => min m x.duration) r.duration

/-- Spec-side: the maximum duration in a result log (0 when empty). -/
def maxDuration : List TestResult → Nat
  | [] => 0
  | r :: rest => rest.foldl (fun m x => max m x.duration) r.duration

/-- Spec-side: the first result (in log order) with the given duration. -/
def firstWithDur (rs : List TestResult) (d : Nat) : Option TestResult :=
  rs.find? fun r => r.duration == d

/-- Spec-side: the last result (in log order) with the given duration. -/
def lastWithDur : List TestResult → Nat → Option TestResult
  | [], _ => none
  | r :: rs, d =>
    match lastWithDur rs d with
    | some x => some x
    | none => if r.duration == d then some r else none

/-- Spec-side scaffolding: a sequence of `add(value, name)` calls (empty
description), used to state the insert-if-absent property over arbitrary
call sequences. -/
def addList (t : Tester T) (l : List (String × T)) : Tester T :=
  l.foldl (fun acc p => addNamed acc p.2 p.1 "") t

/-- Spec-side scaffolding: one `add` call through either single-item
overload, `add(value, name, description)` or `add(TestItem)`, used to state
the insert-if-absent property over arbitrary mixed call sequences. -/
inductive AddCall (T : Type) where
  | value (item : T) (name description : String)
  | itemCall (testItem : TestItem T)

/-- The explicit name an `add` call inserts under (before generation). -/
def callName : AddCall T → String
  | .value _ nm _ => nm
  | .itemCall ti => ti.name

/-- Interpret one `add` call on the tester state. -/
def applyAddCall (t : Tester T) : AddCall T → Tester T
  | .value v nm d => addNamed t v nm d
  | .itemCall ti => addItem t ti

/-- Interpret a sequence of `add` calls through either overload. -/
def addCalls (t : Tester T) (l : List (AddCall T)) : Tester T :=
  l.foldl applyAddCall t

/-- Spec-side scaffolding: the public store-mutating operations of the
tester, one constructor per overload, used to state the store invariant
over arbitrary call sequences. -/
inductive Op (T : Type) where
  | addValue (item : T) (name description : String)
  | addOne (testItem : TestItem T)
  | addVals (items : List T) (baseName : String)
  | addMany (items : List (TestItem T))
  | removeName (name : String)
  | removeWhen (pred : TestItem T → Bool)
  | expectName (name : String)
  | expectWhen (pred : TestItem T → Bool)
  | clearAll

/-- Interpret one public operation on the tester state. -/
def applyOp (t : Tester T) : Op T → Tester T
  | .addValue v nm d => addNamed t v nm d
  | .addOne ti => addItem t ti
  | .addVals vs b => addValues t vs b
  | .addMany tis => addItems t tis
  | .removeName nm => remove t nm
  | .removeWhen p => removeIf t p
  | .expectName nm => expect t nm
  | .expectWhen p => expectIf t p
  | .clearAll => clear t

/-- Interpret a sequence of public operations. -/
def applyOps (t : Tester T) (ops : List (Op T)) : Tester T :=
  ops.foldl applyOp t

/-! ### Concrete states used by the witness theorems -/

/-- A simple predicate: positivity over `Int` (always returns, never throws). -/
def sampleCb : Int → Except String Bool :=
  fun x => Except.ok (decide (0 < x))

/-- A predicate that throws `"boom"` on negative inputs. -/
def throwCb : Int → Except String Bool :=
  fun x => if x < 0 then Except.error "boom" else Except.ok true

/-- One positive item `"a"`, positivity predicate set. -/
def w1 : Tester Int :=
  forEach (addNamed (emptyTester Int) 1 "a" "") sampleCb

/-- State `w1` after `run()`: one passing result. -/
def w1After : Tester Int :=
  { w1 with results := [⟨"a", true, "", 0, false, ""⟩] }

/-- Items `"a" ↦ 1` and `"b" ↦ -5`, positivity predicate set. -/
def w2 : Tester Int :=
  forEach (addNamed (addNamed (emptyTester Int) 1 "a" "") (-5) "b" "desc") sampleCb

/-- State `w2` with `"b"` marked expected-to-fail via `expect`. -/
def w2e : Tester Int := expect w2 "b"

/-- State `w2e` after `runTests()`: both results pass (the raw `false` on `"b"` is
inverted). -/
def w2eAfter : Tester Int :=
  { w2e with results :=
      [⟨"a", true, "", 0, false, ""⟩, ⟨"b", true, "", 0, true, "desc"⟩] }

/-- Items `"a" ↦ 1` and `"b" ↦ -5`, throwing predicate set. -/
def w3 : Tester Int :=
  forEach (addNamed (addNamed (emptyTester Int) 1 "a" "") (-5) "b" "") throwCb

/-- State `w3` after `runTests()`: `"b"` fails with the exception message. -/
def w3After : Tester Int :=
  { w3 with results :=
      [⟨"a", true, "", 0, false, ""⟩, ⟨"b", false, "boom", 0, false, ""⟩] }

/-- A one-entry store used by the name-generation witness. -/
def c5m : List (String × TestItem Int) :=
  [("Test_1", ⟨1, "Test_1", "", false⟩)]

/-- Two results with equal durations and different names (tie-break input). -/
def cr1 : TestResult := ⟨"a", true, "", 5, false, ""⟩

/-- Second of the two equal-duration results. -/
def cr2 : TestResult := ⟨"b", true, "", 5, false, ""⟩

/-! ### Helper lemmas -/

theorem digitChar_inj : ∀ d₁ < 10, ∀ d₂ < 10,
    Char.ofNat (48 + d₁) = Char.ofNat (48 + d₂) → d₁ = d₂ := by decide

theorem digitChar_toNat : ∀ d < 10, (Char.ofNat (48 + d)).toNat - 48 = d := by decide

theorem map_digitChar_inj (l₁ l₂ : List Nat)
    (h₁ : ∀ d ∈ l₁, d < 10) (h₂ : ∀ d ∈ l₂, d < 10)
    (h : l₁.map (fun d => Char.ofNat (48 + d)) = l₂.map (fun d => Char.ofNat (48 + d))) :
    l₁ = l₂ := by
  have e := congrArg (List.map (fun c : Char => c.toNat - 48)) h
  rw [List.map_map, List.map_map] at e
  have r₁ : l₁.map ((fun c : Char => c.toNat - 48) ∘ fun d => Char.ofNat (48 + d)) = l₁ := by
    refine (List.map_congr_left ?_).trans (List.map_id l₁)
    intro d hd
    simpa [Function.comp] using digitChar_toNat d (h₁ d hd)
  have r₂ : l₂.map ((fun c : Char => c.toNat - 48) ∘ fun d => Char.ofNat (48 + d)) = l₂ := by
    refine (List.map_congr_left ?_).trans (List.map_id l₂)
    intro d hd
    simpa [Function.comp] using digitChar_toNat d (h₂ d hd)
  rw [r₁, r₂] at e
  exact e

theorem natDigitsAux_eq_digits :
    ∀ (fuel n : Nat), n ≤ fuel → natDigitsAux fuel n = Nat.digits 10 n := by
  intro fuel
  induction fuel with
  | zero =>
    intro n hn
    interval_cases n
    simp [natDigitsAux]
  | succ fuel ih =>
    intro n hn
    match n with
    | 0 => simp [natDigitsAux]
    | n + 1 =>
      rw [natDigitsAux, Nat.digits_def' (by norm_num) (Nat.succ_pos n)]
      have hdiv : (n + 1) / 10 ≤ fuel := by
        have := Nat.div_le_self (n + 1) 10
        have h2 : (n + 1) / 10 < n + 1 := Nat.div_lt_self (Nat.succ_pos n) (by norm_num)
        omega
      rw [ih ((n + 1) / 10) hdiv]

theorem natDecimal_injOn (a b : Nat) (ha : 0 < a) (hb : 0 < b)
    (h : natDecimal a = natDecimal b) : a = b := by
  unfold natDecimal at h
  rw [if_neg (Nat.pos_iff_ne_zero.mp ha), if_neg (Nat.pos_iff_ne_zero.mp hb),
    natDigitsAux_eq_digits a a (Nat.le_refl a),
    natDigitsAux_eq_digits b b (Nat.le_refl b)] at h
  have hdata := congrArg String.data h
  simp only [String.data] at hdata
  have hrev := congrArg List.reverse hdata
  rw [List.reverse_reverse, List.reverse_reverse] at hrev
  have hdig : Nat.digits 10 a = Nat.digits 10 b := by
    refine map_digitChar_inj _ _ ?_ ?_ hrev
    · intro d hd; exact Nat.digits_lt_base (by norm_num) hd
    · intro d hd; exact Nat.digits_lt_base (by norm_num) hd
  have := congrArg (Nat.ofDigits 10) hdig
  rwa [Nat.ofDigits_digits, Nat.ofDigits_digits] at this

theorem containsKey_iff {T : Type} (m : List (String × TestItem T)) (k : String) :
    containsKey m k = true ↔ k ∈ m.map Prod.fst := by
  simp [containsKey, List.any_eq_true, List.mem_map, beq_iff_eq]

theorem candName_injOn (baseName : String) (a b : Nat) (ha : 0 < a) (hb : 0 < b)
    (h : candName baseName a = candName baseName b) : a = b := by
  unfold candName at h
  have hdata := congrArg String.data h
  simp only [String.data_append] at hdata
  have := List.append_cancel_left hdata
  exact natDecimal_injOn a b ha hb (String.ext this)

theorem genLoop_spec {T : Type} (m : List (String × TestItem T)) (baseName : String)
    (fuel counter : Nat)
    (h : ∃ j, j < fuel ∧ containsKey m (candName baseName (counter + j)) = false) :
    ∃ j, j < fuel ∧ genLoop m baseName fuel counter = candName baseName (counter + j) ∧
      containsKey m (candName baseName (counter + j)) = false ∧
      ∀ i, i < j → containsKey m (candName baseName (counter + i)) = true := by
  induction fuel generalizing counter with
  | zero => obtain ⟨j, hj, _⟩ := h; omega
  | succ fuel ih =>
    by_cases hc : containsKey m (candName baseName counter) = true
    · have h' : ∃ j, j < fuel ∧
          containsKey m (candName baseName (counter + 1 + j)) = false := by
        obtain ⟨j, hj, hfree⟩ := h
        match j, hj with
        | 0, _ => rw [Nat.add_zero] at hfree; rw [hfree] at hc; cases hc
        | j + 1, hj =>
          exact ⟨j, by omega, by rwa [show counter + 1 + j = counter + (j + 1) by omega]⟩
      obtain ⟨j, hj, heq, hfree, hall⟩ := ih (counter + 1) h'
      refine ⟨j + 1, by omega, ?_, ?_, ?_⟩
      · simpa [genLoop, hc, show counter + 1 + j = counter + (j + 1) by omega] using heq
      · rwa [show counter + (j + 1) = counter + 1 + j by omega]
      · intro i hi
        match i with
        | 0 => simpa using hc
        | i + 1 =>
          have := hall i (by omega)
          rwa [show counter + 1 + i = counter + (i + 1) by omega] at this
    · refine ⟨0, by omega, ?_, ?_, ?_⟩
      · simp [genLoop, hc]
      · simpa using Bool.not_eq_true _ |>.mp hc
      · intro i hi; omega

/-- Pigeonhole: among the `m.length + 1` pairwise distinct candidate names
starting at a positive counter, at least one is absent from `m`. -/
theorem exists_fresh {T : Type} (m : List (String × TestItem T)) (baseName : String)
    (counter : Nat) (hpos : 0 < counter) :
    ∃ j, j < m.length + 1 ∧ containsKey m (candName baseName (counter + j)) = false := by
  by_contra hall
  push_neg at hall
  have hall' : ∀ j, j < m.length + 1 →
      candName baseName (counter + j) ∈ m.map Prod.fst := by
    intro j hj
    have := hall j hj
    rw [← containsKey_iff]
    revert this
    cases containsKey m (candName baseName (counter + j)) <;> simp
  set S : Finset String :=
    (Finset.range (m.length + 1)).image fun j => candName baseName (counter + j) with hS
  have hsub : S ⊆ (m.map Prod.fst).toFinset := by
    intro s hs
    rw [hS, Finset.mem_image] at hs
    obtain ⟨j, hj, rfl⟩ := hs
    rw [List.mem_toFinset]
    exact hall' j (Finset.mem_range.mp hj)
  have hcard : S.card = m.length + 1 := by
    rw [hS, Finset.card_image_of_injOn, Finset.card_range]
    intro a ha b hb hab
    have := candName_injOn baseName (counter + a) (counter + b) (by omega) (by omega) hab
    omega

  have hle : S.card ≤ (m.map Prod.fst).toFinset.card := Finset.card_le_card hsub
  have hle2 : (m.map Prod.fst).toFinset.card ≤ m.length := by
    calc (m.map Prod.fst).toFinset.card ≤ (m.map Prod.fst).length :=
          List.toFinset_card_le _
      _ = m.length := List.length_map _ _
  omega

/-- Freshness: `generateUniqueName` never returns a key already present, and it returns
the first free candidate `"{baseName}_{n}"` counting up from `size + 1`. -/
theorem generateUniqueName_spec {T : Type} (m : List (String × TestItem T))
    (baseName : String) :
    containsKey m (generateUniqueName m baseName) = false ∧
    ∃ n, m.length + 1 ≤ n ∧ generateUniqueName m baseName = candName baseName n ∧
      ∀ k, m.length + 1 ≤ k → k < n → containsKey m (candName baseName k) = true := by
  obtain ⟨j, hj, heq, hfree, hall⟩ :=
    genLoop_spec m baseName (m.length + 1) (m.length + 1)
      (exists_fresh m baseName (m.length + 1) (by omega))
  rw [generateUniqueName, heq]
  refine ⟨hfree, m.length + 1 + j, by omega, rfl, ?_⟩
  intro k hk1 hk2
  have := hall (k - (m.length + 1)) (by omega)
  rwa [show m.length + 1 + (k - (m.length + 1)) = k by omega] at this

theorem runList_length (cb : T → Except String Bool) (durOf : Nat → Nat) :
    ∀ (i : Nat) (l : List (String × TestItem T)),
      (runList cb durOf i l).length = l.length := by
  intro i l
  induction l generalizing i with
  | nil => rfl
  | cons p ps ih => simp [runList, ih]

theorem runList_get? (cb : T → Except String Bool) (durOf : Nat → Nat) :
    ∀ (l : List (String × TestItem T)) (i j : Nat),
      (runList cb durOf i l).get? j =
        (l.get? j).map fun p => runItem cb p.1 p.2 (durOf (i + j)) := by
  intro l
  induction l with
  | nil => intro i j; simp [runList]
  | cons p ps ih =>
    intro i j
    cases j with
    | zero => simp [runList]
    | succ j =>
      have h2 := ih (i + 1) j
      rw [show i + 1 + j = i + (j + 1) from by omega] at h2
      simpa [runList] using h2

theorem runTests_ok (t : Tester T) (cb : T → Except String Bool)
    (hcb : t.testCallback = some cb) (durOf : Nat → Nat) :
    runTests t durOf =
      Except.ok { t with results := runList cb durOf 0 t.testItems } := by
  simp [runTests, hcb]

/-- Claim C1.  With the predicate set, `run()` returns `true` exactly when
`getFailedCount()` is zero after the run, i.e. exactly when every result in
the log is successful. -/
theorem spec_C1_run_true_iff_no_failures (t : Tester T) (durOf : Nat → Nat)
    (b : Bool) (t' : Tester T) (h : run t durOf = Except.ok (b, t')) :
    (b = true ↔ getFailedCount t' = 0) ∧
    (b = true ↔ ∀ r ∈ t'.results, r.success = true) := by
  cases hcb : t.testCallback with
  | none => simp [run, runTests, hcb] at h
  | some cb =>
    rw [run, runTests_ok t cb hcb] at h
    simp only [Except.ok.injEq, Prod.mk.injEq] at h
    obtain ⟨hb, ht'⟩ := h
    subst ht'
    subst hb
    have hlen : (runList cb durOf 0 t.testItems).length = t.testItems.length :=
      runList_length cb durOf 0 t.testItems
    have hle : (runList cb durOf 0 t.testItems).countP (fun r => r.success) ≤
        (runList cb durOf 0 t.testItems).length := List.countP_le_length _
    simp only [getPassedCount, getFailedCount]
    constructor
    · rw [beq_iff_eq]
      omega
    · rw [beq_iff_eq, ← hlen, List.countP_eq_length]

/-- Witness for C1 at a concrete tester with one passing item. -/
theorem spec_C1_witness :
    (true = true ↔ getFailedCount w1After = 0) ∧
    (true = true ↔ ∀ r ∈ w1After.results, r.success = true) :=
  spec_C1_run_true_iff_no_failures w1 (fun _ => 0) true w1After rfl

/-- Claim C6.  With no predicate in the callback slot, `runTests` throws the
configuration error, `run` propagates it, and no per-item result is
produced. -/
theorem spec_C6_missing_callback (t : Tester T) (durOf : Nat → Nat)
    (h : t.testCallback = none) :
    runTests t durOf = Except.error "Test callback not set" ∧
    run t durOf = Except.error "Test callback not set" := by
  constructor <;> simp [run, runTests, h]

/-- Witness for C6 on the default-constructed tester. -/
theorem spec_C6_witness :
    runTests (emptyTester Int) (fun _ => 0) = Except.error "Test callback not set" ∧
    run (emptyTester Int) (fun _ => 0) = Except.error "Test callback not set" :=
  spec_C6_missing_callback (emptyTester Int) (fun _ => 0) rfl

/-- Claim C9.  `clear()` empties both the store and the result log, and a
subsequent `run()` (the predicate still set) yields zero passed tests and
returns `true` vacuously. -/
theorem spec_C9_clear (t : Tester T) (cb : T → Except String Bool)
    (hcb : t.testCallback = some cb) (durOf : Nat → Nat) :
    (clear t).testItems = [] ∧ (clear t).results = [] ∧
    run (clear t) durOf = Except.ok (true, clear t) ∧
    getPassedCount (clear t) = 0 := by
  have hc : (clear t).testCallback = some cb := hcb
  refine ⟨rfl, rfl, ?_, rfl⟩
  rw [run, runTests_ok (clear t) cb hc]
  rfl

/-- Witness for C9 at a concrete tester with one item and a set predicate. -/
theorem spec_C9_witness :
    (clear w1).testItems = [] ∧ (clear w1).results = [] ∧
    run (clear w1) (fun _ => 0) = Except.ok (true, clear w1) ∧
    getPassedCount (clear w1) = 0 :=
  spec_C9_clear w1 sampleCb rfl (fun _ => 0)

theorem find?_setExpected (nm : String) (l : List (String × TestItem T)) :
    (setExpected nm l).find? (fun p => p.1 == nm) =
      (l.find? fun p => p.1 == nm).map
        fun p => (p.1, { p.2 with expectedToFail := true }) := by
  induction l with
  | nil => rfl
  | cons p ps ih =>
    by_cases h : (p.1 == nm) = true
    · simp [setExpected, h, List.find?_cons_of_pos]
    · simp only [Bool.not_eq_true] at h
      simp [setExpected, h, List.find?_cons_of_neg, ih]

/-- Claim C2.  Marking an item via `expect(name)` sets its flag (first
conjunct); a marked item whose predicate returns `true` yields a failing
result with error `"Test unexpectedly passed"`; a marked item whose
predicate returns `false` yields a passing result; an unmarked item whose
predicate returns `false` yields error `"Test failed"`. -/
theorem spec_C2_expected_failure (t₀ : Tester T) (nm : String)
    (cb : T → Except String Bool) (durOf : Nat → Nat) (t' : Tester T)
    (i : Nat) (key : String) (ti : TestItem T)
    (hcb : (expect t₀ nm).testCallback = some cb)
    (hrun : runTests (expect t₀ nm) durOf = Except.ok t')
    (hi : (expect t₀ nm).testItems.get? i = some (key, ti)) :
    getTestItem (expect t₀ nm) nm =
      (getTestItem t₀ nm).map (fun it => { it with expectedToFail := true }) ∧
    (ti.expectedToFail = true → cb ti.item = Except.ok true →
      t'.results.get? i =
        some ⟨key, false, "Test unexpectedly passed", durOf i, true, ti.description⟩) ∧
    (ti.expectedToFail = true → cb ti.item = Except.ok false →
      t'.results.get? i = some ⟨key, true, "", durOf i, true, ti.description⟩) ∧
    (ti.expectedToFail = false → cb ti.item = Except.ok false →
      t'.results.get? i = some ⟨key, false, "Test failed", durOf i, false, ti.description⟩) := by
  rw [runTests_ok (expect t₀ nm) cb hcb] at hrun
  simp only [Except.ok.injEq] at hrun
  subst hrun
  have hres : (runList cb durOf 0 (expect t₀ nm).testItems).get? i =
      some (runItem cb key ti (durOf i)) := by
    rw [runList_get?, hi]
    simp
  refine ⟨?_, ?_, ?_, ?_⟩
  · simp only [getTestItem, expect, find?_setExpected, Option.map_map]
    rfl
  · intro hflag hok
    rw [hres]
    simp [runItem, hok, hflag]
  · intro hflag hok
    rw [hres]
    simp [runItem, hok, hflag]
  · intro hflag hok
    rw [hres]
    simp [runItem, hok, hflag]

/-- Witness for C2: `"b" ↦ -5` marked via `expect`, positivity predicate
returns `false`, the result passes; and the flag was set by `expect`. -/
theorem spec_C2_witness :
    getTestItem w2e "b" =
      (getTestItem w2 "b").map (fun it => { it with expectedToFail := true }) ∧
    w2eAfter.results.get? 1 = some ⟨"b", true, "", 0, true, "desc"⟩ := by
  have h := spec_C2_expected_failure w2 "b" sampleCb (fun _ => 0) w2eAfter 1 "b"
    ⟨-5, "b", "desc", true⟩ rfl rfl rfl
  exact ⟨h.1, h.2.2.1 rfl rfl⟩

/-- Claim C3.  A predicate invocation that throws yields a failing result
carrying the exception message, whatever the expected-to-fail flag, and the
run still produces one result for every item. -/
theorem spec_C3_exception_capture (t : Tester T) (cb : T → Except String Bool)
    (durOf : Nat → Nat) (t' : Tester T) (i : Nat) (key : String)
    (ti : TestItem T) (msg : String)
    (hcb : t.testCallback = some cb)
    (hrun : runTests t durOf = Except.ok t')
    (hi : t.testItems.get? i = some (key, ti))
    (hexc : cb ti.item = Except.error msg) :
    t'.results.get? i =
      some ⟨key, false, msg, durOf i, ti.expectedToFail, ti.description⟩ ∧
    t'.results.length = t.testItems.length := by
  rw [runTests_ok t cb hcb] at hrun
  simp only [Except.ok.injEq] at hrun
  subst hrun
  constructor
  · rw [runList_get?, hi]
    simp [runItem, hexc]
  · exact runList_length cb durOf 0 t.testItems

/-- Witness for C3: the throwing predicate throws `"boom"` on `"b" ↦ -5`;
the result fails with that message and both items still got results. -/
theorem spec_C3_witness :
    w3After.results.get? 1 = some ⟨"b", false, "boom", 0, false, ""⟩ ∧
    w3After.results.length = w3.testItems.length :=
  spec_C3_exception_capture w3 throwCb (fun _ => 0) w3After 1 "b"
    ⟨-5, "b", "", false⟩ "boom" rfl rfl rfl rfl

/-- Claim C5.  For every store and prefix, the generated name has the form
`"{prefix}_{n}"` with `n` starting at `size + 1` and incrementing until the
candidate is absent, and the returned name is never a key of the store. -/
theorem spec_C5_generate_unique_name (m : List (String × TestItem T))
    (baseName : String) :
    containsKey m (generateUniqueName m baseName) = false ∧
    ∃ n, m.length + 1 ≤ n ∧ generateUniqueName m baseName = candName baseName n ∧
      ∀ k, m.length + 1 ≤ k → k < n → containsKey m (candName baseName k) = true :=
  generateUniqueName_spec m baseName

/-- Witness for C5: a one-entry store `{"Test_1"}` yields the fresh name
`"Test_2"` (counter starts at `size + 1 = 2`). -/
theorem spec_C5_witness :
    containsKey c5m (generateUniqueName c5m "Test") = false ∧
    generateUniqueName c5m "Test" = candName "Test" 2 :=
  ⟨(spec_C5_generate_unique_name c5m "Test").1, by decide⟩

theorem addNamed_of_contains (t : Tester T) (v : T) (nm d : String) (hn : nm ≠ "")
    (h : containsKey t.testItems nm = true) : addNamed t v nm d = t := by
  simp [addNamed, beq_eq_false_iff_ne.mpr hn, tryEmplace, h]

theorem addNamed_of_fresh (t : Tester T) (v : T) (nm d : String) (hn : nm ≠ "")
    (h : containsKey t.testItems nm = false) :
    addNamed t v nm d =
      { t with testItems := t.testItems ++ [(nm, ⟨v, nm, d, false⟩)] } := by
  simp [addNamed, beq_eq_false_iff_ne.mpr hn, tryEmplace, h]

theorem containsKey_append_single (m : List (String × TestItem T)) (k : String)
    (v : TestItem T) (s : String) :
    containsKey (m ++ [(k, v)]) s = (containsKey m s || (k == s)) := by
  simp [containsKey, List.any_append]

theorem containsKey_addNamed (t : Tester T) (v : T) (nm d : String) (hn : nm ≠ "") :
    containsKey (addNamed t v nm d).testItems nm = true := by
  cases h : containsKey t.testItems nm with
  | true => rw [addNamed_of_contains t v nm d hn h]; exact h
  | false =>
    rw [addNamed_of_fresh t v nm d hn h]
    simp [containsKey_append_single, h]

theorem addList_keys (t : Tester T) (l : List (String × T))
    (hne : ∀ p ∈ l, p.1 ≠ "") (hnd : (l.map Prod.fst).Nodup) :
    (addList t l).testItems.map Prod.fst =
      t.testItems.map Prod.fst ++
        (l.map Prod.fst).filter (fun s => !containsKey t.testItems s) := by
  induction l generalizing t with
  | nil => simp [addList]
  | cons p ps ih =>
    have hp1 : p.1 ≠ "" := hne p (by simp)
    have hne' : ∀ q ∈ ps, q.1 ≠ "" := fun q hq => hne q (by simp [hq])
    rw [List.map_cons, List.nodup_cons] at hnd
    obtain ⟨hout, hnd'⟩ := hnd
    have hstep : addList t (p :: ps) = addList (addNamed t p.2 p.1 "") ps := rfl
    cases hc : containsKey t.testItems p.1 with
    | true =>
      rw [hstep, addNamed_of_contains t p.2 p.1 "" hp1 hc, ih t hne' hnd']
      simp [hc]
    | false =>
      rw [hstep, addNamed_of_fresh t p.2 p.1 "" hp1 hc, ih _ hne' hnd']
      have hfilter : ∀ s ∈ ps.map Prod.fst,
          (!containsKey (t.testItems ++ [(p.1, ⟨p.2, p.1, "", false⟩)]) s) =
            (!containsKey t.testItems s) := by
        intro s hs
        have hsne : p.1 ≠ s := fun he => hout (he ▸ hs)
        rw [containsKey_append_single, beq_eq_false_iff_ne.mpr hsne, Bool.or_false]
      rw [List.filter_congr hfilter]
      simp [hc]

theorem addItem_of_contains (t : Tester T) (ti : TestItem T) (hn : ti.name ≠ "")
    (h : containsKey t.testItems ti.name = true) : addItem t ti = t := by
  simp [addItem, beq_eq_false_iff_ne.mpr hn, tryEmplace, h]

theorem addItem_of_fresh (t : Tester T) (ti : TestItem T) (hn : ti.name ≠ "")
    (h : containsKey t.testItems ti.name = false) :
    addItem t ti = { t with testItems := t.testItems ++ [(ti.name, ti)] } := by
  simp [addItem, beq_eq_false_iff_ne.mpr hn, tryEmplace, h]

theorem containsKey_addItem (t : Tester T) (ti : TestItem T) (hn : ti.name ≠ "") :
    containsKey (addItem t ti).testItems ti.name = true := by
  cases h : containsKey t.testItems ti.name with
  | true => rw [addItem_of_contains t ti hn h]; exact h
  | false =>
    rw [addItem_of_fresh t ti hn h]
    simp [containsKey_append_single, h]

theorem addCalls_keys (t : Tester T) (l : List (AddCall T))
    (hne : ∀ c ∈ l, callName c ≠ "") (hnd : (l.map callName).Nodup) :
    (addCalls t l).testItems.map Prod.fst =
      t.testItems.map Prod.fst ++
        (l.map callName).filter (fun s => !containsKey t.testItems s) := by
  induction l generalizing t with
  | nil => simp [addCalls]
  | cons c cs ih =>
    have hc1 : callName c ≠ "" := hne c (by simp)
    have hne' : ∀ q ∈ cs, callName q ≠ "" := fun q hq => hne q (by simp [hq])
    rw [List.map_cons, List.nodup_cons] at hnd
    obtain ⟨hout, hnd'⟩ := hnd
    have hstep : addCalls t (c :: cs) = addCalls (applyAddCall t c) cs := rfl
    cases hc : containsKey t.testItems (callName c) with
    | true =>
      have hnoop : applyAddCall t c = t := by
        cases c with
        | value v nm d => exact addNamed_of_contains t v nm d hc1 hc
        | itemCall ti => exact addItem_of_contains t ti hc1 hc
      rw [hstep, hnoop, ih t hne' hnd']
      simp [hc]
    | false =>
      obtain ⟨vi, hvi⟩ : ∃ vi, (applyAddCall t c).testItems =
          t.testItems ++ [(callName c, vi)] := by
        cases c with
        | value v nm d =>
          refine ⟨⟨v, nm, d, false⟩, ?_⟩
          rw [show applyAddCall t (AddCall.value v nm d)
            = addNamed t v nm d from rfl, addNamed_of_fresh t v nm d hc1 hc]
          rfl
        | itemCall ti =>
          refine ⟨ti, ?_⟩
          rw [show applyAddCall t (AddCall.itemCall ti)
            = addItem t ti from rfl, addItem_of_fresh t ti hc1 hc]
          rfl
      rw [hstep, ih (applyAddCall t c) hne' hnd', hvi]
      have hfilter : ∀ s ∈ cs.map callName,
          (!containsKey (t.testItems ++ [(callName c, vi)]) s) =
            (!containsKey t.testItems s) := by
        intro s hs
        have hsne : callName c ≠ s := fun he => hout (he ▸ hs)
        rw [containsKey_append_single, beq_eq_false_iff_ne.mpr hsne, Bool.or_false]
      rw [List.filter_congr hfilter]
      simp [hc]

/-- Claim C4.  Adding under an existing explicit name leaves the tester
untouched, through either single-item overload; any duplicate explicit add
(value over value, item over value, item over item, value over item) is a
complete no-op, never replacing the first entry's value, description or
flag; and for any sequence of `add` calls with distinct nonempty names,
through either overload, the store gains exactly the names not already
present, one entry each. -/
theorem spec_C4_insert_if_absent (t : Tester T) (v v' : T) (nm d d' : String)
    (ti ti' : TestItem T) (hn : nm ≠ "") (hti : ti.name = nm) (hti' : ti'.name = nm) :
    (containsKey t.testItems nm = true → addNamed t v nm d = t) ∧
    (containsKey t.testItems nm = true → addItem t ti = t) ∧
    addNamed (addNamed t v nm d) v' nm d' = addNamed t v nm d ∧
    addItem (addNamed t v nm d) ti' = addNamed t v nm d ∧
    addItem (addItem t ti) ti' = addItem t ti ∧
    addNamed (addItem t ti) v' nm d' = addItem t ti ∧
    (∀ l : List (String × T), (∀ p ∈ l, p.1 ≠ "") → (l.map Prod.fst).Nodup →
      (addList t l).testItems.map Prod.fst =
        t.testItems.map Prod.fst ++
          (l.map Prod.fst).filter (fun s => !containsKey t.testItems s)) ∧
    (∀ l : List (AddCall T), (∀ c ∈ l, callName c ≠ "") → (l.map callName).Nodup →
      (addCalls t l).testItems.map Prod.fst =
        t.testItems.map Prod.fst ++
          (l.map callName).filter (fun s => !containsKey t.testItems s)) := by
  have hn1 : ti.name ≠ "" := by rw [hti]; exact hn
  have hn1' : ti'.name ≠ "" := by rw [hti']; exact hn
  refine ⟨addNamed_of_contains t v nm d hn, ?_, ?_, ?_, ?_, ?_,
    fun l => addList_keys t l, fun l => addCalls_keys t l⟩
  · intro h
    exact addItem_of_contains t ti hn1 (by rw [hti]; exact h)
  · exact addNamed_of_contains (addNamed t v nm d) v' nm d' hn
      (containsKey_addNamed t v nm d hn)
  · exact addItem_of_contains (addNamed t v nm d) ti' hn1'
      (by rw [hti']; exact containsKey_addNamed t v nm d hn)
  · exact addItem_of_contains (addItem t ti) ti' hn1'
      (by rw [hti']; rw [← hti]; exact containsKey_addItem t ti hn1)
  · exact addNamed_of_contains (addItem t ti) v' nm d' hn
      (by rw [← hti]; exact containsKey_addItem t ti hn1)

/-- Witness for C4: duplicate adds through both overloads on a concrete
tester are no-ops, and a mixed two-call sequence with distinct explicit
names yields exactly those two keys. -/
theorem spec_C4_witness :
    ("a" : String) ≠ "" ∧
    addNamed (addNamed (emptyTester Int) 1 "a" "x") 2 "a" "y" =
      addNamed (emptyTester Int) 1 "a" "x" ∧
    addItem (addNamed (emptyTester Int) 1 "a" "x") ⟨4, "a", "w", true⟩ =
      addNamed (emptyTester Int) 1 "a" "x" ∧
    addItem (addItem (emptyTester Int) ⟨3, "a", "z", true⟩) ⟨4, "a", "w", true⟩ =
      addItem (emptyTester Int) ⟨3, "a", "z", true⟩ ∧
    (addCalls (emptyTester Int)
        [AddCall.value 1 "a" "x", AddCall.itemCall ⟨5, "b", "", true⟩]).testItems.map
      Prod.fst = ["a", "b"] := by
  have h := spec_C4_insert_if_absent (emptyTester Int) 1 2 "a" "x" "y"
    ⟨3, "a", "z", true⟩ ⟨4, "a", "w", true⟩ (by decide) rfl rfl
  have h8 := h.2.2.2.2.2.2.2
    [AddCall.value 1 "a" "x", AddCall.itemCall ⟨5, "b", "", true⟩]
    (by decide) (by decide)
  refine ⟨by decide, h.2.2.1, h.2.2.2.1, h.2.2.2.2.1, ?_⟩
  rw [h8]
  rfl

theorem pres_tryEmplace (m : List (String × TestItem T)) (k : String)
    (v : TestItem T) (h : ∀ p ∈ m, p.1 = p.2.name) (hv : k = v.name) :
    ∀ p ∈ tryEmplace m k v, p.1 = p.2.name := by
  intro p hp
  unfold tryEmplace at hp
  by_cases hc : containsKey m k = true
  · rw [if_pos hc] at hp
    exact h p hp
  · rw [if_neg hc] at hp
    rcases List.mem_append.mp hp with hm | hm
    · exact h p hm
    · simp only [List.mem_singleton] at hm
      subst hm
      exact hv

theorem pres_addNamed (t : Tester T) (v : T) (nm d : String)
    (h : ∀ p ∈ t.testItems, p.1 = p.2.name) :
    ∀ p ∈ (addNamed t v nm d).testItems, p.1 = p.2.name := by
  intro p hp
  exact pres_tryEmplace t.testItems
    (if nm == "" then generateUniqueName t.testItems else nm)
    ⟨v, (if nm == "" then generateUniqueName t.testItems else nm), d, false⟩
    h rfl p hp

theorem pres_addItem (t : Tester T) (ti : TestItem T)
    (h : ∀ p ∈ t.testItems, p.1 = p.2.name) :
    ∀ p ∈ (addItem t ti).testItems, p.1 = p.2.name := by
  intro p hp
  by_cases hb : (ti.name == "") = true
  · have hp' : p ∈ tryEmplace t.testItems (generateUniqueName t.testItems)
        { ti with name := generateUniqueName t.testItems } := by
      simpa [addItem, hb] using hp
    exact pres_tryEmplace t.testItems (generateUniqueName t.testItems)
      { ti with name := generateUniqueName t.testItems } h rfl p hp'
  · have hp' : p ∈ tryEmplace t.testItems ti.name ti := by
      simpa [addItem, hb] using hp
    exact pres_tryEmplace t.testItems ti.name ti h rfl p hp'

theorem pres_addValues (t : Tester T) (vs : List T) (baseName : String)
    (h : ∀ p ∈ t.testItems, p.1 = p.2.name) :
    ∀ p ∈ (addValues t vs baseName).testItems, p.1 = p.2.name := by
  induction vs generalizing t with
  | nil => simpa [addValues] using h
  | cons v vs ih =>
    exact ih (addNamed t v (generateUniqueName t.testItems baseName) "")
      (pres_addNamed t v _ "" h)

theorem pres_addItems (t : Tester T) (tis : List (TestItem T))
    (h : ∀ p ∈ t.testItems, p.1 = p.2.name) :
    ∀ p ∈ (addItems t tis).testItems, p.1 = p.2.name := by
  induction tis generalizing t with
  | nil => simpa [addItems] using h
  | cons ti tis ih => exact ih (addItem t ti) (pres_addItem t ti h)

theorem pres_setExpected (nm : String) (l : List (String × TestItem T))
    (h : ∀ p ∈ l, p.1 = p.2.name) :
    ∀ p ∈ setExpected nm l, p.1 = p.2.name := by
  induction l with
  | nil => intro p hp; cases hp
  | cons q qs ih =>
    intro p hp
    unfold setExpected at hp
    by_cases hq : (q.1 == nm) = true
    · rw [if_pos hq] at hp
      rcases List.mem_cons.mp hp with hm | hm
      · subst hm
        exact h q (List.mem_cons_self q qs)
      · exact h p (List.mem_cons_of_mem q hm)
    · rw [if_neg hq] at hp
      rcases List.mem_cons.mp hp with hm | hm
      · subst hm
        exact h p (List.mem_cons_self p qs)
      · exact ih (fun r hr => h r (List.mem_cons_of_mem q hr)) p hm

/-- Claim C10.  After any sequence of public store operations starting from
a fresh tester, every store entry's key equals the stored item's `name`
field. -/
theorem spec_C10_store_key_matches_name (ops : List (Op T)) :
    ∀ p ∈ (applyOps (emptyTester T) ops).testItems, p.1 = p.2.name := by
  suffices h : ∀ t : Tester T, (∀ p ∈ t.testItems, p.1 = p.2.name) →
      ∀ p ∈ (applyOps t ops).testItems, p.1 = p.2.name by
    refine h (emptyTester T) ?_
    intro p hp
    cases hp
  induction ops with
  | nil => intro t ht; simpa [applyOps] using ht
  | cons op ops ih =>
    intro t ht
    have hstep : applyOps t (op :: ops) = applyOps (applyOp t op) ops := rfl
    rw [hstep]
    refine ih (applyOp t op) ?_
    cases op with
    | addValue v nm d => exact pres_addNamed t v nm d ht
    | addOne ti => exact pres_addItem t ti ht
    | addVals vs b => exact pres_addValues t vs b ht
    | addMany tis => exact pres_addItems t tis ht
    | removeName nm =>
      intro p hp
      exact ht p (List.mem_of_mem_filter hp)
    | removeWhen pr =>
      intro p hp
      exact ht p (List.mem_of_mem_filter hp)
    | expectName nm => exact pres_setExpected nm t.testItems ht
    | expectWhen pr =>
      intro p hp
      simp only [applyOp, expectIf, List.mem_map] at hp
      obtain ⟨q, hq, rfl⟩ := hp
      by_cases hpr : pr q.2 = true
      · rw [if_pos hpr]
        exact ht q hq
      · rw [if_neg hpr]
        exact ht q hq
    | clearAll =>
      intro p hp
      cases hp

/-- Witness for C10: adding `"a"` and marking it expected-to-fail leaves the
key equal to the stored item's name. -/
theorem spec_C10_witness :
    ("a", (⟨1, "a", "", true⟩ : TestItem Int)).1 =
      (⟨1, "a", "", true⟩ : TestItem Int).name :=
  spec_C10_store_key_matches_name
    [Op.addValue (1 : Int) "a" "", Op.expectName "a"]
    ("a", ⟨1, "a", "", true⟩) (by decide)

theorem foldl_pair (l : List TestResult) (a b : TestResult) :
    l.foldl (fun mm x =>
      ((if x.duration < mm.1.duration then x else mm.1),
       (if x.duration < mm.2.duration then mm.2 else x))) (a, b) =
    (l.foldl (fun mn x => if x.duration < mn.duration then x else mn) a,
     l.foldl (fun mx x => if x.duration < mx.duration then mx else x) b) := by
  induction l generalizing a b with
  | nil => rfl
  | cons x l ih => exact ih _ _

theorem minmaxElement_cons (r : TestResult) (rest : List TestResult) :
    minmaxElement (r :: rest) =
      some (rest.foldl (fun mn x => if x.duration < mn.duration then x else mn) r,
            rest.foldl (fun mx x => if x.duration < mx.duration then mx else x) r) := by
  rw [minmaxElement, foldl_pair]

theorem fmin_duration (a x : TestResult) :
    (if x.duration < a.duration then x else a).duration =
      min a.duration x.duration := by
  by_cases h : x.duration < a.duration
  · rw [if_pos h, Nat.min_eq_right (Nat.le_of_lt h)]
  · rw [if_neg h, Nat.min_eq_left (Nat.le_of_not_lt h)]

theorem fmax_duration (a x : TestResult) :
    (if x.duration < a.duration then a else x).duration =
      max a.duration x.duration := by
  by_cases h : x.duration < a.duration
  · rw [if_pos h, Nat.max_eq_left (Nat.le_of_lt h)]
  · rw [if_neg h, Nat.max_eq_right (Nat.le_of_not_lt h)]

theorem foldl_min_le (l : List TestResult) (d : Nat) :
    l.foldl (fun m x => min m x.duration) d ≤ d := by
  induction l generalizing d with
  | nil => exact Nat.le_refl d
  | cons x l ih => exact Nat.le_trans (ih (min d x.duration)) (Nat.min_le_left _ _)

theorem foldl_max_ge (l : List TestResult) (d : Nat) :
    d ≤ l.foldl (fun m x => max m x.duration) d := by
  induction l generalizing d with
  | nil => exact Nat.le_refl d
  | cons x l ih => exact Nat.le_trans (Nat.le_max_left _ _) (ih (max d x.duration))

theorem foldl_min_firstWithDur :
    ∀ (l : List TestResult) (a : TestResult),
      firstWithDur (a :: l) (l.foldl (fun m x => min m x.duration) a.duration) =
        some (l.foldl (fun mn x => if x.duration < mn.duration then x else mn) a) := by
  intro l
  induction l with
  | nil =>
    intro a
    simp [firstWithDur]
  | cons x l ih =>
    intro a
    have hfold1 : (x :: l).foldl (fun m y => min m y.duration) a.duration =
        l.foldl (fun m y => min m y.duration)
          ((if x.duration < a.duration then x else a).duration) := by
      rw [List.foldl_cons, fmin_duration]
    have hfold2 : (x :: l).foldl
          (fun mn y => if y.duration < mn.duration then y else mn) a =
        l.foldl (fun mn y => if y.duration < mn.duration then y else mn)
          (if x.duration < a.duration then x else a) := by
      rw [List.foldl_cons]
    rw [hfold1, hfold2, ← ih]
    by_cases hx : x.duration < a.duration
    · rw [if_pos hx]
      have hM : l.foldl (fun m y => min m y.duration) x.duration ≤ x.duration :=
        foldl_min_le l x.duration
      have hne : ¬ (a.duration =
          l.foldl (fun m y => min m y.duration) x.duration) := by omega
      unfold firstWithDur
      rw [List.find?_cons_of_neg _ (by simpa [beq_iff_eq] using hne)]
    · rw [if_neg hx]
      have hM : l.foldl (fun m y => min m y.duration) a.duration ≤ a.duration :=
        foldl_min_le l a.duration
      have hax : a.duration ≤ x.duration := Nat.le_of_not_lt hx
      by_cases haM : a.duration = l.foldl (fun m y => min m y.duration) a.duration
      · unfold firstWithDur
        rw [List.find?_cons_of_pos _ (by simpa [beq_iff_eq] using haM),
          List.find?_cons_of_pos _ (by simpa [beq_iff_eq] using haM)]
      · have hxM : ¬ (x.duration =
            l.foldl (fun m y => min m y.duration) a.duration) := by omega
        unfold firstWithDur
        rw [List.find?_cons_of_neg _ (by simpa [beq_iff_eq] using haM),
          List.find?_cons_of_neg _ (by simpa [beq_iff_eq] using hxM),
          List.find?_cons_of_neg _ (by simpa [beq_iff_eq] using haM)]

theorem foldl_max_lastWithDur :
    ∀ (l : List TestResult) (a : TestResult),
      lastWithDur (a :: l) (l.foldl (fun m x => max m x.duration) a.duration) =
        some (l.foldl (fun mx x => if x.duration < mx.duration then mx else x) a) := by
  intro l
  induction l with
  | nil =>
    intro a
    simp [lastWithDur]
  | cons x l ih =>
    intro a
    have hfold1 : (x :: l).foldl (fun m y => max m y.duration) a.duration =
        l.foldl (fun m y => max m y.duration)
          ((if x.duration < a.duration then a else x).duration) := by
      rw [List.foldl_cons, fmax_duration]
    have hfold2 : (x :: l).foldl
          (fun mx y => if y.duration < mx.duration then mx else y) a =
        l.foldl (fun mx y => if y.duration < mx.duration then mx else y)
          (if x.duration < a.duration then a else x) := by
      rw [List.foldl_cons]
    rw [hfold1, hfold2, ← ih]
    by_cases hx : x.duration < a.duration
    · rw [if_pos hx]
      have hM : a.duration ≤ l.foldl (fun m y => max m y.duration) a.duration :=
        foldl_max_ge l a.duration
      have hxM : ¬ (x.duration =
          l.foldl (fun m y => max m y.duration) a.duration) := by omega
      cases hrec : lastWithDur l (l.foldl (fun m y => max m y.duration) a.duration) with
      | some y => simp [lastWithDur, hrec]
      | none => simp [lastWithDur, hrec, beq_iff_eq, hxM]
    · rw [if_neg hx]
      have hM : x.duration ≤ l.foldl (fun m y => max m y.duration) x.duration :=
        foldl_max_ge l x.duration
      have hax : a.duration ≤ x.duration := Nat.le_of_not_lt hx
      cases hrec : lastWithDur l (l.foldl (fun m y => max m y.duration) x.duration) with
      | some y => simp [lastWithDur, hrec]
      | none =>
        by_cases hxM : x.duration = l.foldl (fun m y => max m y.duration) x.duration
        · have hbeq : (x.duration ==
              l.foldl (fun m y => max m y.duration) x.duration) = true :=
            beq_iff_eq.mpr hxM
          simp [lastWithDur, hrec, hbeq]
        · have haM : ¬ (a.duration =
              l.foldl (fun m y => max m y.duration) x.duration) := by omega
          simp [lastWithDur, hrec, beq_iff_eq, hxM, haM]

theorem slowTests_filter (rs : List TestResult) :
    slowTests rs = rs.filter (fun r => decide (3 * avgTime rs < 2 * r.duration)) := by
  unfold slowTests
  refine List.filter_congr ?_
  intro r _
  exact decide_eq_decide.mpr (by omega)

/-- Claim C7 (amended).  For a non-empty result log, `std::minmax_element`
selects as fastest the FIRST result attaining the minimal duration and as
slowest the LAST result attaining the maximal duration (the original claim
said "first" for both), and the slow-test listing contains exactly the
results whose duration strictly exceeds 1.5 times the (integer) mean
duration. -/
theorem spec_C7_performance_analysis (r : TestResult) (rest : List TestResult) :
    (∀ mn mx, minmaxElement (r :: rest) = some (mn, mx) →
      firstWithDur (r :: rest) (minDuration (r :: rest)) = some mn ∧
      lastWithDur (r :: rest) (maxDuration (r :: rest)) = some mx) ∧
    slowTests (r :: rest) =
      (r :: rest).filter
        (fun x => decide (3 * avgTime (r :: rest) < 2 * x.duration)) := by
  constructor
  · intro mn mx hmm
    rw [minmaxElement_cons] at hmm
    simp only [Option.some.injEq, Prod.mk.injEq] at hmm
    obtain ⟨h1, h2⟩ := hmm
    subst h1
    subst h2
    exact ⟨foldl_min_firstWithDur rest r, foldl_max_lastWithDur rest r⟩
  · exact slowTests_filter (r :: rest)

/-- Counterexample for C7 as stated: on two results of equal duration the
code's slowest pick is the SECOND (`cr2`), while the first result attaining
the maximal duration is `cr1 ≠ cr2`. -/
theorem spec_C7_counterexample :
    minmaxElement [cr1, cr2] = some (cr1, cr2) ∧
    firstWithDur [cr1, cr2] (maxDuration [cr1, cr2]) = some cr1 ∧
    cr2 ≠ cr1 := by decide

/-- Witness for C7 at the concrete two-element log. -/
theorem spec_C7_witness :
    firstWithDur [cr1, cr2] (minDuration [cr1, cr2]) = some cr1 ∧
    lastWithDur [cr1, cr2] (maxDuration [cr1, cr2]) = some cr2 ∧
    slowTests [cr1, cr2] =
      [cr1, cr2].filter
        (fun x => decide (3 * avgTime [cr1, cr2] < 2 * x.duration)) := by
  have h := spec_C7_performance_analysis cr1 [cr2]
  have h1 := h.1 cr1 cr2 (by decide)
  exact ⟨h1.1, h1.2, h.2⟩

/-- Claim C8 (amended).  `getPassRate()` returns `0` whenever the RESULT LOG
is empty (the original claim said "whenever the Store is empty"); otherwise
it returns `100 * passed / total` computed over the result log. -/
theorem spec_C8_pass_rate (t : Tester T) :
    (t.results = [] → getPassRate t = 0) ∧
    (t.results ≠ [] →
      getPassRate t = 100 * (getPassedCount t : ℚ) / (t.results.length : ℚ)) := by
  constructor
  · intro h
    simp [getPassRate, h]
  · intro h
    rw [getPassRate, if_neg (by simpa [List.isEmpty_iff] using h)]
    ring

/-- Counterexample for C8 as stated: after a run, `remove` empties the Store
while the Result Log still holds the passing result, so `getPassRate()` is
`100`, not `0`; the state is reached by `add`, `forEach`, `run`, `remove`. -/
theorem spec_C8_counterexample :
    run w1 (fun _ => 0) = Except.ok (true, w1After) ∧
    (remove w1After "a").testItems = [] ∧
    getPassRate (remove w1After "a") = 100 := by
  refine ⟨rfl, rfl, ?_⟩
  norm_num [getPassRate, getPassedCount, remove, w1After]

/-- Witness for C8 at the after-run tester (non-empty result log) and the
fresh tester (empty result log). -/
theorem spec_C8_witness :
    getPassRate w1After =
      100 * (getPassedCount w1After : ℚ) / (w1After.results.length : ℚ) ∧
    getPassRate (emptyTester Int) = 0 :=
  ⟨(spec_C8_pass_rate w1After).2 (by decide),
   (spec_C8_pass_rate (emptyTester Int)).1 rfl⟩

end RyRange
